import Mathlib

/-!
Verification development for the Enshrined Relayers attestation codec.

The definitions below are a shallow embedding of the repository's
protocol-relevant code:

* the canonical message/valset encoder of the relayer
  (computeMessageDigest, computeValsetHash, getSortedSignerOrder,
  encodeUvarint, encodeWithLength, encodeStringWithLength,
  getAddressBytes from canonical.ts),
* the signature bitmap codec (createBitmap, parseBitmap, isBitSet,
  setBit, clearBit from bitmap.ts),
* the signing daemon's digest validation (SignDigest from
  internal/keys, handleSign from cmd/daemon/main.go).

Byte strings are modelled as `List Nat` with entries below 256;
JavaScript/Go strings are modelled as their character sequences
(`List Char`), and text encoding uses UTF-8 exactly as
`TextEncoder().encode` does.  The SHA-256 function used through
`createHash('sha256')` is embedded as an executable transcription of
FIPS 180-4 (validated against the standard test vectors).
-/

/-! ### SHA-256 (model of createHash('sha256') / crypto/sha256) -/

/-- Truncation to a 32-bit word. -/
def w32 (x : Nat) : Nat := x % 4294967296

/-- Right rotation of a 32-bit word. -/
def rotr (n x : Nat) : Nat := w32 ((x >>> n) ||| (x <<< (32 - n)))

def bsig0 (x : Nat) : Nat := (rotr 2 x) ^^^ (rotr 13 x) ^^^ (rotr 22 x)

def bsig1 (x : Nat) : Nat := (rotr 6 x) ^^^ (rotr 11 x) ^^^ (rotr 25 x)

def ssig0 (x : Nat) : Nat := (rotr 7 x) ^^^ (rotr 18 x) ^^^ (x >>> 3)

def ssig1 (x : Nat) : Nat := (rotr 17 x) ^^^ (rotr 19 x) ^^^ (x >>> 10)

/-- SHA-256 choice function; complement on 32 bits is xor with 0xFFFFFFFF. -/
def shaCh (x y z : Nat) : Nat := (x &&& y) ^^^ ((x ^^^ 4294967295) &&& z)

def shaMaj (x y z : Nat) : Nat := (x &&& y) ^^^ (x &&& z) ^^^ (y &&& z)

/-- The 64 SHA-256 round constants of FIPS 180-4 (decimal). -/
def sha256K : List Nat :=
  [1116352408, 1899447441, 3049323471, 3921009573, 961987163, 1508970993,
   2453635748, 2870763221, 3624381080, 310598401, 607225278, 1426881987,
   1925078388, 2162078206, 2614888103, 3248222580, 3835390401, 4022224774,
   264347078, 604807628, 770255983, 1249150122, 1555081692, 1996064986,
   2554220882, 2821834349, 2952996808, 3210313671, 3336571891, 3584528711,
   113926993, 338241895, 666307205, 773529912, 1294757372, 1396182291,
   1695183700, 1986661051, 2177026350, 2456956037, 2730485921, 2820302411,
   3259730800, 3345764771, 3516065817, 3600352804, 4094571909, 275423344,
   430227734, 506948616, 659060556, 883997877, 958139571, 1322822218,
   1537002063, 1747873779, 1955562222, 2024104815, 2227730452, 2361852424,
   2428436474, 2756734187, 3204031479, 3329325298]

/-- The initial SHA-256 state of FIPS 180-4 (decimal). -/
def sha256H0 : List Nat :=
  [1779033703, 3144134277, 1013904242, 2773480762,
   1359893119, 2600822924, 528734635, 1541459225]

/-- Big-endian 8-byte encoding of a 64-bit value (DataView.setBigUint64 with
big-endian flag wraps its argument modulo 2^64; extracting bytes this way
agrees with that wrap for every `value`). -/
def u64be (value : Nat) : List Nat :=
  [(value >>> 56) % 256, (value >>> 48) % 256, (value >>> 40) % 256, (value >>> 32) % 256,
   (value >>> 24) % 256, (value >>> 16) % 256, (value >>> 8) % 256, value % 256]

/-- Big-endian bytes of a 32-bit word. -/
def word32be (w : Nat) : List Nat :=
  [(w >>> 24) % 256, (w >>> 16) % 256, (w >>> 8) % 256, w % 256]

/-- The i-th big-endian 32-bit word of a 64-byte block. -/
def wordAt (block : List Nat) (i : Nat) : Nat :=
  (block.getD (4 * i) 0) <<< 24 ||| (block.getD (4 * i + 1) 0) <<< 16 |||
  (block.getD (4 * i + 2) 0) <<< 8 ||| block.getD (4 * i + 3) 0

/-- One extension step of the SHA-256 message schedule. -/
def scheduleNext (w : List Nat) : List Nat :=
  w ++ [w32 (ssig1 (w.getD (w.length - 2) 0) + w.getD (w.length - 7) 0 +
             ssig0 (w.getD (w.length - 15) 0) + w.getD (w.length - 16) 0)]

/-- The 64-word message schedule of a block. -/
def schedule (block : List Nat) : List Nat :=
  (List.range 48).foldl (fun w _ => scheduleNext w) ((List.range 16).map (wordAt block))

/-- One round of the SHA-256 compression function on state [a,b,c,d,e,f,g,h]. -/
def compressStep (w : List Nat) (st : List Nat) (t : Nat) : List Nat :=
  let a := st.getD 0 0
  let b := st.getD 1 0
  let c := st.getD 2 0
  let d := st.getD 3 0
  let e := st.getD 4 0
  let f := st.getD 5 0
  let g := st.getD 6 0
  let h := st.getD 7 0
  let t1 := w32 (h + bsig1 e + shaCh e f g + sha256K.getD t 0 + w.getD t 0)
  let t2 := w32 (bsig0 a + shaMaj a b c)
  [w32 (t1 + t2), a, b, c, w32 (d + t1), e, f, g]

/-- Process one 64-byte block. -/
def sha256Block (st block : List Nat) : List Nat :=
  let w := schedule block
  let out := (List.range 64).foldl (compressStep w) st
  List.zipWith (fun x y => w32 (x + y)) st out

/-- FIPS 180-4 padding: 0x80, zeros to 56 mod 64, 8-byte big-endian bit length. -/
def sha256Pad (msg : List Nat) : List Nat :=
  msg ++ 128 :: List.replicate ((119 - msg.length % 64) % 64) 0 ++ u64be (8 * msg.length)

/-- Split into 64-byte chunks.  The fuel argument makes the recursion
structural; `chunks64` supplies enough fuel because each step removes at
least one element from a nonempty list. -/
def chunksAux : Nat → List Nat → List (List Nat)
  | 0, _ => []
  | _, [] => []
  | fuel + 1, a :: rest => ((a :: rest).take 64) :: chunksAux fuel ((a :: rest).drop 64)

def chunks64 (l : List Nat) : List (List Nat) := chunksAux l.length l

/-- SHA-256 of a byte string. -/
def sha256 (msg : List Nat) : List Nat :=
  (((chunks64 (sha256Pad msg)).foldl sha256Block sha256H0).map word32be).flatten

/-! ### canonical.ts: the canonical encoder -/

/-- Model of HyperlaneMessage from canonical.ts.  String-valued fields carry their
character sequences; `body` is raw bytes. -/
structure HyperlaneMessage where
  originChainId : List Char
  destChainId : List Char
  nonce : Nat
  senderModule : List Char
  recipientModule : List Char
  body : List Nat
  valsetId : Nat
deriving DecidableEq

/-- Model of ValsetSigner from canonical.ts. -/
structure ValsetSigner where
  operator : List Char
  attestationPubkey : List Nat
  power : Nat
deriving DecidableEq

/-- UTF-8 bytes of a character sequence, as produced by TextEncoder. -/
def utf8Bytes (cs : List Char) : List Nat :=
  ((cs.map String.utf8EncodeChar).flatten).map UInt8.toNat

/-- Model of encodeUvarint from canonical.ts (Go binary.PutUvarint): while the value
is at least 0x80, emit the low 7 bits with the continuation bit, then shift
right by 7; emit the final byte.  The fuel argument makes the recursion
structural; `value + 1` units always suffice since `value >>> 7 < value`
whenever `128 <= value`. -/
def encodeUvarintAux : Nat → Nat → List Nat
  | 0, _ => []
  | fuel + 1, value =>
    if 128 <= value then ((value &&& 255) ||| 128) :: encodeUvarintAux fuel (value >>> 7)
    else [value &&& 255]

def encodeUvarint (value : Nat) : List Nat := encodeUvarintAux (value + 1) value

/-- Model of encodeWithLength: uvarint length prefix followed by the raw bytes. -/
def encodeWithLength (data : List Nat) : List Nat := encodeUvarint data.length ++ data

/-- Model of encodeStringWithLength: UTF-8 encode, then length-prefix. -/
def encodeStringWithLength (s : List Char) : List Nat := encodeWithLength (utf8Bytes s)

/-- Model of computeMessageDigest from canonical.ts: the SHA-256 of the in-order
concatenation of the seven encoded fields. -/
def computeMessageDigest (msg : HyperlaneMessage) : List Nat :=
  sha256 (encodeStringWithLength msg.originChainId ++
          encodeStringWithLength msg.destChainId ++
          encodeWithLength (u64be msg.nonce) ++
          encodeStringWithLength msg.senderModule ++
          encodeStringWithLength msg.recipientModule ++
          encodeWithLength msg.body ++
          encodeWithLength (u64be msg.valsetId))

/-- JavaScript String.split on a separator character: the list of chunks
between occurrences of the separator. -/
def splitChar (sep : Char) : List Char → List (List Char)
  | [] => [[]]
  | c :: rest =>
    if c = sep then [] :: splitChar sep rest
    else
      match splitChar sep rest with
      | [] => [[c]]
      | p :: ps => (c :: p) :: ps

/-- Model of getAddressBytes from canonical.ts: split the address on '1'; unless this
yields exactly two parts, throw (modelled as `none`); otherwise return the
first 20 bytes of the SHA-256 of the part after the '1' (the 20-byte target
buffer is entirely overwritten by the 32-byte hash slice). -/
def getAddressBytes (bech32Addr : List Char) : Option (List Nat) :=
  match splitChar '1' bech32Addr with
  | [_, data] => some ((sha256 (utf8Bytes data)).take 20)
  | _ => none

/-- The sort key used on signers: the decoded operator address bytes
(defaulting to `[]` where the decode throws; every context sorting signers
first establishes that all operators decode). -/
def keyBytes (s : ValsetSigner) : List Nat := (getAddressBytes s.operator).getD []

/-- Buffer.compare: byte-lexicographic comparison, a strict prefix ordering
before the longer buffer. -/
def bufCmp : List Nat → List Nat → Ordering
  | [], [] => Ordering.eq
  | [], _ :: _ => Ordering.lt
  | _ :: _, [] => Ordering.gt
  | a :: as, b :: bs =>
    if a < b then Ordering.lt else if b < a then Ordering.gt else bufCmp as bs

/-- The comparator of canonical.ts's sorts: signer `a` precedes (or ties)
signer `b` when Buffer.compare of their address bytes is not positive. -/
def signerLE (a b : ValsetSigner) : Prop :=
  bufCmp (keyBytes a) (keyBytes b) ≠ Ordering.gt

instance : DecidableRel signerLE := fun a b =>
  inferInstanceAs (Decidable (bufCmp (keyBytes a) (keyBytes b) ≠ Ordering.gt))

/-- Strict version of the signer comparator (used to state uniqueness of the
sorted order when sort keys are distinct). -/
def signerLT (a b : ValsetSigner) : Prop :=
  bufCmp (keyBytes a) (keyBytes b) = Ordering.lt

/-- JavaScript Array.prototype.sort is a stable sort; a stable insertion sort
with the same comparator computes the same result. -/
def sortSigners (signers : List ValsetSigner) : List ValsetSigner :=
  List.insertionSort signerLE signers

/-- Whether every signer's operator decodes (no comparator/body throw). -/
def decodable (signers : List ValsetSigner) : Bool :=
  signers.all fun s => (getAddressBytes s.operator).isSome

/-- Per-signer section of the valset commitment: length-prefixed address
bytes, length-prefixed attestation public key, length-prefixed 8-byte
big-endian power. -/
def signerEncoding (s : ValsetSigner) : List Nat :=
  encodeWithLength (keyBytes s) ++ encodeWithLength s.attestationPubkey ++
  encodeWithLength (u64be s.power)

/-- Model of computeValsetHash from canonical.ts: sort the signers by address bytes,
concatenate the per-signer encodings, hash once with SHA-256.  `none` models
the exception thrown when some operator fails to decode (the body loop
decodes every operator). -/
def computeValsetHash (signers : List ValsetSigner) : Option (List Nat) :=
  if decodable signers then
    some (sha256 ((sortSigners signers).map signerEncoding).flatten)
  else none

/-- Model of getSortedSignerOrder from canonical.ts.  With at most one element the
comparator is never invoked, so no decode happens and no exception can be
thrown; otherwise a sort evaluates every signer's address bytes. -/
def getSortedSignerOrder (signers : List ValsetSigner) : Option (List ValsetSigner) :=
  if signers.length <= 1 then some signers
  else if decodable signers then some (sortSigners signers) else none

/-! ### bitmap.ts: the signature bitmap codec -/

/-- Model of createBitmap from bitmap.ts: a zero buffer of ceil(total/8) bytes; each
index in range (the source also guards `idx >= 0`, automatic for `Nat`) ORs
`1 << (idx % 8)` into byte `idx / 8`; out-of-range indices are skipped. -/
def createBitmap (validatorIndices : List Nat) (totalValidators : Nat) : List Nat :=
  validatorIndices.foldl
    (fun bitmap idx =>
      if idx < totalValidators then
        bitmap.set (idx / 8) ((bitmap.getD (idx / 8) 0) ||| (1 <<< (idx % 8)))
      else bitmap)
    (List.replicate ((totalValidators + 7) / 8) 0)

/-- Inner loop of `parseBitmap`: bit positions `bitPos`, `bitPos+1`, ... of
one byte, stopping at 8 (fuel counts the remaining positions) or as soon as
the derived validator index reaches `totalValidators` (the source's break). -/
def parseBitsAux (bitmapByte byteIdx totalValidators : Nat) : Nat → Nat → List Nat
  | 0, _ => []
  | fuel + 1, bitPos =>
    if totalValidators <= byteIdx * 8 + bitPos then []
    else if (bitmapByte &&& (1 <<< bitPos)) ≠ 0 then
      (byteIdx * 8 + bitPos) :: parseBitsAux bitmapByte byteIdx totalValidators fuel (bitPos + 1)
    else parseBitsAux bitmapByte byteIdx totalValidators fuel (bitPos + 1)

/-- Outer loop of `parseBitmap` over the bytes, tracking the byte index. -/
def parseBytesAux (totalValidators : Nat) : List Nat → Nat → List Nat
  | [], _ => []
  | byte :: rest, byteIdx =>
    parseBitsAux byte byteIdx totalValidators 8 0 ++
      parseBytesAux totalValidators rest (byteIdx + 1)

/-- Model of parseBitmap from bitmap.ts: ascending indices of the set bits, skipping
positions at or beyond `totalValidators`. -/
def parseBitmap (bitmap : List Nat) (totalValidators : Nat) : List Nat :=
  parseBytesAux totalValidators bitmap 0

/-- Model of isBitSet from bitmap.ts: false when byte `idx / 8` is out of bounds,
else test `bitmap[idx / 8] & (1 << (idx % 8))`. -/
def isBitSet (bitmap : List Nat) (validatorIndex : Nat) : Bool :=
  if bitmap.length <= validatorIndex / 8 then false
  else decide ((bitmap.getD (validatorIndex / 8) 0) &&& (1 <<< (validatorIndex % 8)) ≠ 0)

/-- Model of setBit from bitmap.ts, as a function from the buffer to the updated
buffer (the source mutates in place); a no-op when byte `idx / 8` is out of
bounds. -/
def setBit (bitmap : List Nat) (validatorIndex : Nat) : List Nat :=
  if validatorIndex / 8 < bitmap.length then
    bitmap.set (validatorIndex / 8)
      ((bitmap.getD (validatorIndex / 8) 0) ||| (1 <<< (validatorIndex % 8)))
  else bitmap

/-- Model of clearBit from bitmap.ts: AND with the 32-bit complement of the mask
(`~(1 << bitPos)` acts on JavaScript's 32-bit integers); a no-op when byte
`idx / 8` is out of bounds. -/
def clearBit (bitmap : List Nat) (validatorIndex : Nat) : List Nat :=
  if validatorIndex / 8 < bitmap.length then
    bitmap.set (validatorIndex / 8)
      ((bitmap.getD (validatorIndex / 8) 0) &&& (4294967295 ^^^ (1 <<< (validatorIndex % 8))))
  else bitmap

/-! ### signing daemon: keys.SignDigest and the /sign handler -/

/-- Model of SignDigest from internal/keys/keys.go.  The underlying curve operation
`crypto.Sign(digest, privateKey)` is abstracted as the `cryptoSign`
parameter (the private key is already applied). -/
def SignDigest (cryptoSign : List Nat → Except String (List Nat))
    (digest : List Nat) : Except String (List Nat) :=
  if digest.length ≠ 32 then
    Except.error ("digest must be exactly 32 bytes, got " ++ toString digest.length)
  else cryptoSign digest

/-- Value of a hexadecimal digit, as accepted by Go's hex.DecodeString. -/
def hexDigitVal (c : Char) : Option Nat :=
  if '0' <= c ∧ c <= '9' then some (c.toNat - 48)
  else if 'a' <= c ∧ c <= 'f' then some (c.toNat - 87)
  else if 'A' <= c ∧ c <= 'F' then some (c.toNat - 55)
  else none

/-- Go hex.DecodeString on a character list: fails on odd length or any
non-hex character. -/
def hexDecodeChars : List Char → Option (List Nat)
  | [] => some []
  | [_] => none
  | c1 :: c2 :: rest =>
    match hexDigitVal c1, hexDigitVal c2, hexDecodeChars rest with
    | some hi, some lo, some tail => some ((16 * hi + lo) :: tail)
    | _, _, _ => none

def hexDecodeString (s : String) : Option (List Nat) := hexDecodeChars s.toList

/-- HTTP response of the /sign endpoint, after JSON decoding: either an
error status with its message, or the signature bytes (base64 transport
encoding abstracted away). -/
inductive SignResponse where
  | err (status : Nat) (message : String)
  | ok (signature : List Nat)
deriving DecidableEq

/-- Model of handleSign from cmd/daemon/main.go, from the point where the request
fields are available.  `keyLookup` models `keyStore.GetPrivateKey` over an
abstract private-key type `K`; `cryptoSign` models `crypto.Sign`.  The
checks run in source order: required fields, hex decode, 32-byte length,
key lookup, `keys.SignDigest`. -/
def handleSign {K : Type} (keyLookup : String → Option K)
    (cryptoSign : K → List Nat → Except String (List Nat))
    (operatorBech32 digestHex : String) : SignResponse :=
  if operatorBech32 = "" then SignResponse.err 400 "operatorBech32 is required"
  else if digestHex = "" then SignResponse.err 400 "digestHex is required"
  else
    match hexDecodeString digestHex with
    | none => SignResponse.err 400 "Invalid digestHex format"
    | some digest =>
      if digest.length ≠ 32 then SignResponse.err 400 "digest must be exactly 32 bytes"
      else
        match keyLookup operatorBech32 with
        | none => SignResponse.err 404 ("Private key not found for operator: " ++ operatorBech32)
        | some privateKey =>
          match SignDigest (cryptoSign privateKey) digest with
          | Except.error e => SignResponse.err 500 ("Failed to sign digest: " ++ e)
          | Except.ok signature => SignResponse.ok signature

/-! ### Spec-side definitions and concrete inputs used by the theorems -/

/-- Spec-side field encoding (claim C1's wording): a string or byte field is
its uvarint-length prefix followed by the raw bytes. -/
def specLengthPrefixed (b : List Nat) : List Nat := encodeUvarint b.length ++ b

/-- Spec-side u64 field (claim C1's wording): a single length-prefix byte of
value 8 followed by the 8 big-endian bytes. -/
def specU64Field (n : Nat) : List Nat := 8 :: u64be n

/-- Spec-side message encoding: the seven fields in the fixed order
originId, destId, nonce, senderModule, recipientModule, body, valsetId. -/
def specMessageEncoding (msg : HyperlaneMessage) : List Nat :=
  specLengthPrefixed (utf8Bytes msg.originChainId) ++
  specLengthPrefixed (utf8Bytes msg.destChainId) ++
  specU64Field msg.nonce ++
  specLengthPrefixed (utf8Bytes msg.senderModule) ++
  specLengthPrefixed (utf8Bytes msg.recipientModule) ++
  specLengthPrefixed msg.body ++
  specU64Field msg.valsetId

/-- The documented message size limit (Params.MaxBodyBytes default, 32KB). -/
def maxBodyBytes : Nat := 32768

/-- A message whose body exceeds the configured cap by one byte. -/
def oversizedMessage : HyperlaneMessage :=
  { originChainId := ['o'], destChainId := ['d'], nonce := 1,
    senderModule := ['s'], recipientModule := ['r'],
    body := List.replicate (maxBodyBytes + 1) 0, valsetId := 1 }

/-- "sorted(S)" for an index list: ascending order. -/
def sortedIndices (S : List Nat) : List Nat := List.insertionSort (fun a b => a <= b) S

/-- Two signers whose distinct operator strings have the same substring after
the separator, hence identical (tied) sort-key bytes. -/
def dupA : ValsetSigner := { operator := ['a', '1', 'x'], attestationPubkey := [1], power := 1 }

def dupB : ValsetSigner := { operator := ['b', '1', 'x'], attestationPubkey := [2], power := 2 }

/-- Two signers with distinct sort keys, for the permutation-invariance
witness. -/
def wsA : ValsetSigner := { operator := ['a', '1', 'x'], attestationPubkey := [1], power := 1 }

def wsB : ValsetSigner := { operator := ['a', '1', 'y'], attestationPubkey := [2], power := 2 }

/-! ### Helper lemmas -/

theorem compressStep_length (w st : List Nat) (t : Nat) : (compressStep w st t).length = 8 := rfl

theorem foldl_compressStep_length (w : List Nat) (l : List Nat) :
    ∀ st : List Nat, st.length = 8 → (l.foldl (compressStep w) st).length = 8 := by
  induction l with
  | nil => intro st h; exact h
  | cons t ts ih =>
    intro st _
    rw [List.foldl_cons]
    exact ih _ (compressStep_length w st t)

theorem sha256Block_length (st block : List Nat) (h : st.length = 8) :
    (sha256Block st block).length = 8 := by
  unfold sha256Block
  rw [List.length_zipWith, foldl_compressStep_length _ _ _ h, h]
  rfl

theorem foldl_sha256Block_length (blocks : List (List Nat)) :
    ∀ st : List Nat, st.length = 8 → (blocks.foldl sha256Block st).length = 8 := by
  induction blocks with
  | nil => intro st h; exact h
  | cons b bs ih =>
    intro st h
    rw [List.foldl_cons]
    exact ih _ (sha256Block_length _ _ h)

theorem flatten_word32be_length (l : List Nat) :
    ((l.map word32be).flatten).length = 4 * l.length := by
  induction l with
  | nil => rfl
  | cons x xs ih =>
    simp only [List.map_cons, List.flatten_cons, List.length_append, List.length_cons, ih, word32be]
    simp [List.length_cons]
    omega

theorem sha256_length (msg : List Nat) : (sha256 msg).length = 32 := by
  unfold sha256
  rw [flatten_word32be_length, foldl_sha256Block_length _ sha256H0 rfl]

theorem land_shift_ne_zero (n p : Nat) :
    ((n &&& (1 <<< p)) ≠ 0) ↔ n.testBit p := by
  rw [Nat.shiftLeft_eq, one_mul, Nat.and_two_pow]
  cases h : n.testBit p <;> simp [h, (Nat.two_pow_pos p).ne']

theorem getD_set_self (l : List Nat) (j v : Nat) (h : j < l.length) :
    (l.set j v).getD j 0 = v := by
  simp [List.getD_eq_getElem?_getD, List.getElem?_set, h]

theorem getD_set_ne (l : List Nat) (j k v : Nat) (h : j ≠ k) :
    (l.set j v).getD k 0 = l.getD k 0 := by
  simp [List.getD_eq_getElem?_getD, List.getElem?_set, h]

theorem getD_replicate_zero (n j : Nat) : (List.replicate n (0 : Nat)).getD j 0 = 0 := by
  simp only [List.getD_eq_getElem?_getD, List.getElem?_replicate]
  split <;> rfl

/-! ### Claim theorems: canonical encoder -/

/-- Claim C1: for every message, computeMessageDigest is the SHA-256 of the
concatenation of the seven fields in the fixed order originId, destId,
nonce, senderModule, recipientModule, body, valsetId, where strings and
bytes are uvarint-length-prefixed raw bytes, each u64 is a single
length-prefix byte of value 8 followed by 8 big-endian bytes, and there is
no per-field hashing or domain-separation tag. -/
theorem digest_matches_spec_encoding (msg : HyperlaneMessage) :
    computeMessageDigest msg = sha256 (specMessageEncoding msg) := by
  have hstr : ∀ s : List Char, specLengthPrefixed (utf8Bytes s) = encodeStringWithLength s :=
    fun s => rfl
  have hbytes : ∀ b : List Nat, specLengthPrefixed b = encodeWithLength b := fun b => rfl
  have g8 : encodeUvarint 8 = [8] := by decide
  have hlen : ∀ n : Nat, (u64be n).length = 8 := fun n => rfl
  have h8 : ∀ n : Nat, specU64Field n = encodeWithLength (u64be n) := fun n => by
    simp only [specU64Field, encodeWithLength, hlen, g8, List.singleton_append]
  show sha256 _ = sha256 _
  unfold specMessageEncoding
  rw [hstr, hstr, h8, hstr, hstr, hbytes, h8]

set_option maxRecDepth 1000000 in
set_option maxHeartbeats 4000000 in
/-- Claim C2 (code-bug evidence): the normalizer hashes the display string
rather than decoding it.  'A1QQ' and 'a1qq' are case variants that any
faithful checksum-address decode maps to the same payload bytes, yet
getAddressBytes accepts both and returns different bytes for them. -/
theorem getAddressBytes_case_variants_differ :
    (getAddressBytes ['A', '1', 'Q', 'Q']).isSome = true ∧
    (getAddressBytes ['a', '1', 'q', 'q']).isSome = true ∧
    getAddressBytes ['A', '1', 'Q', 'Q'] ≠ getAddressBytes ['a', '1', 'q', 'q'] := by
  refine ⟨rfl, rfl, ?_⟩
  decide

/-- Claim C3 (code-bug evidence): computeMessageDigest performs no body-size
check: a message whose body exceeds the documented MaxBodyBytes cap is
encoded and digested normally (a 32-byte digest is produced) instead of
being rejected before encoding. -/
theorem oversized_body_still_digested :
    maxBodyBytes < oversizedMessage.body.length ∧
    (computeMessageDigest oversizedMessage).length = 32 := by
  constructor
  · have hb : oversizedMessage.body = List.replicate (maxBodyBytes + 1) 0 := rfl
    rw [hb, List.length_replicate]
    omega
  · exact sha256_length _

/-! ### Order lemmas for Buffer.compare and the signer sort -/

theorem bufCmp_swap (a : List Nat) : ∀ b : List Nat, bufCmp b a = (bufCmp a b).swap := by
  induction a with
  | nil => intro b; cases b <;> rfl
  | cons x xs ih =>
    intro b
    cases b with
    | nil => rfl
    | cons y ys =>
      simp only [bufCmp]
      by_cases h1 : x < y
      · have h2 : ¬ y < x := by omega
        simp [h1, h2, Ordering.swap]
      · by_cases h3 : y < x
        · simp [h1, h3, Ordering.swap]
        · simp [h1, h3, ih]

theorem bufCmp_eq_iff (a : List Nat) : ∀ b : List Nat, bufCmp a b = Ordering.eq ↔ a = b := by
  induction a with
  | nil => intro b; cases b <;> simp [bufCmp]
  | cons x xs ih =>
    intro b
    cases b with
    | nil => simp [bufCmp]
    | cons y ys =>
      simp only [bufCmp]
      by_cases h1 : x < y
      · simp only [if_pos h1]
        constructor
        · intro h; cases h
        · rintro ⟨h, _⟩; omega
      · by_cases h2 : y < x
        · simp only [if_neg h1, if_pos h2]
          constructor
          · intro h; cases h
          · rintro ⟨h, _⟩; omega
        · have hxy : x = y := by omega
          simp [if_neg h1, if_neg h2, ih, hxy]

theorem bufCmp_trans (a : List Nat) : ∀ b c : List Nat,
    bufCmp a b ≠ Ordering.gt → bufCmp b c ≠ Ordering.gt → bufCmp a c ≠ Ordering.gt := by
  induction a with
  | nil => intro b c _ _; cases c <;> simp [bufCmp]
  | cons x xs ih =>
    intro b c hab hbc
    cases b with
    | nil => simp [bufCmp] at hab
    | cons y ys =>
      cases c with
      | nil => simp [bufCmp] at hbc
      | cons z zs =>
        simp only [bufCmp] at hab hbc ⊢
        have hab2 : x < y ∨ (x = y ∧ bufCmp xs ys ≠ Ordering.gt) := by
          by_cases h1 : x < y
          · exact Or.inl h1
          · by_cases h2 : y < x
            · simp [h1, h2] at hab
            · refine Or.inr ⟨by omega, ?_⟩
              simpa [h1, h2] using hab
        have hbc2 : y < z ∨ (y = z ∧ bufCmp ys zs ≠ Ordering.gt) := by
          by_cases h1 : y < z
          · exact Or.inl h1
          · by_cases h2 : z < y
            · simp [h1, h2] at hbc
            · refine Or.inr ⟨by omega, ?_⟩
              simpa [h1, h2] using hbc
        rcases hab2 with h | ⟨he1, hr1⟩
        · rcases hbc2 with h2 | ⟨he2, hr2⟩
          · have hxz : x < z := by omega
            simp [hxz]
          · have hxz : x < z := by omega
            simp [hxz]
        · rcases hbc2 with h2 | ⟨he2, hr2⟩
          · have hxz : x < z := by omega
            simp [hxz]
          · have hxz : x = z := by omega
            have hn1 : ¬ x < z := by omega
            have hn2 : ¬ z < x := by omega
            simp only [if_neg hn1, if_neg hn2]
            exact ih ys zs hr1 hr2

theorem signerLE_total (a b : ValsetSigner) : signerLE a b ∨ signerLE b a := by
  unfold signerLE
  by_cases h : bufCmp (keyBytes a) (keyBytes b) = Ordering.gt
  · right
    rw [bufCmp_swap, h]
    simp [Ordering.swap]
  · exact Or.inl h

theorem signerLE_trans (a b c : ValsetSigner) :
    signerLE a b → signerLE b c → signerLE a c :=
  fun hab hbc => bufCmp_trans _ _ _ hab hbc

theorem signerLT_antisymm (a b : ValsetSigner) : signerLT a b → signerLT b a → a = b := by
  intro h1 h2
  exfalso
  unfold signerLT at h1 h2
  rw [bufCmp_swap, h1] at h2
  cases h2

theorem signerLT_of_le_ne (a b : ValsetSigner) (hle : signerLE a b)
    (hne : keyBytes a ≠ keyBytes b) : signerLT a b := by
  unfold signerLE at hle
  unfold signerLT
  cases h : bufCmp (keyBytes a) (keyBytes b) with
  | lt => rfl
  | eq => exact absurd ((bufCmp_eq_iff _ _).mp h) hne
  | gt => exact absurd h hle

theorem sorted_signerLT_of_nodup (s : List ValsetSigner)
    (hsort : List.Sorted signerLE s) (hnd : (s.map keyBytes).Nodup) :
    List.Sorted signerLT s := by
  have hne : List.Pairwise (fun a b : ValsetSigner => keyBytes a ≠ keyBytes b) s :=
    List.pairwise_map.mp hnd
  exact (hsort.and hne).imp fun h => signerLT_of_le_ne _ _ h.1 h.2

/-! ### Claim theorems: valset ordering and commitment -/

/-- Claim C4 (amended): for every validator list whose normalized operator
sort keys are pairwise distinct, applying the ordering followed by the
commitment hash to any permutation of the list yields the same hash.  (The
distinctness hypothesis is forced: the comparator keys can tie for distinct
operator strings, and the stable sort then preserves the input order of the
tied entries, producing different hashes — see the counterexample.) -/
theorem valset_hash_perm_invariant (l l2 : List ValsetSigner)
    (hperm : l2.Perm l) (hkeys : (l.map keyBytes).Nodup) :
    computeValsetHash l2 = computeValsetHash l := by
  have hdec : decodable l2 = decodable l := by
    rw [Bool.eq_iff_iff]
    simp only [decodable, List.all_eq_true]
    exact ⟨fun h s hs => h s (hperm.mem_iff.mpr hs), fun h s hs => h s (hperm.mem_iff.mp hs)⟩
  unfold computeValsetHash
  rw [hdec]
  by_cases hd : decodable l = true
  · rw [if_pos hd, if_pos hd]
    suffices hs : sortSigners l2 = sortSigners l by rw [hs]
    haveI : IsTotal ValsetSigner signerLE := ⟨signerLE_total⟩
    haveI : IsTrans ValsetSigner signerLE := ⟨signerLE_trans⟩
    haveI : IsAntisymm ValsetSigner signerLT := ⟨signerLT_antisymm⟩
    have hp2 : (sortSigners l2).Perm (sortSigners l) :=
      ((List.perm_insertionSort signerLE l2).trans hperm).trans
        (List.perm_insertionSort signerLE l).symm
    have hnd2 : ((sortSigners l2).map keyBytes).Nodup :=
      ((((List.perm_insertionSort signerLE l2).trans hperm).map keyBytes).nodup_iff).mpr hkeys
    have hnd1 : ((sortSigners l).map keyBytes).Nodup :=
      (((List.perm_insertionSort signerLE l).map keyBytes).nodup_iff).mpr hkeys
    exact List.eq_of_perm_of_sorted hp2
      (sorted_signerLT_of_nodup _ (List.sorted_insertionSort signerLE l2) hnd2)
      (sorted_signerLT_of_nodup _ (List.sorted_insertionSort signerLE l) hnd1)
  · rw [if_neg hd, if_neg hd]

set_option maxRecDepth 1000000 in
set_option maxHeartbeats 4000000 in
/-- Witness for C4: two signers with distinct sort keys; swapping them gives
the same commitment hash. -/
theorem valset_hash_perm_invariant_witness :
    ([wsB, wsA].Perm [wsA, wsB]) ∧ (([wsA, wsB].map keyBytes).Nodup) ∧
    computeValsetHash [wsB, wsA] = computeValsetHash [wsA, wsB] :=
  ⟨by decide, by decide,
   valset_hash_perm_invariant [wsA, wsB] [wsB, wsA] (by decide) (by decide)⟩

set_option maxRecDepth 1000000 in
set_option maxHeartbeats 16000000 in
/-- Counterexample to C4 as stated: dupA and dupB have distinct operator
strings but identical (tied) sort keys; the stable sort preserves input
order of ties, so the two input orders commit to different hashes. -/
theorem valset_hash_tied_keys_not_invariant :
    ([dupB, dupA].Perm [dupA, dupB]) ∧
    computeValsetHash [dupB, dupA] ≠ computeValsetHash [dupA, dupB] := by
  constructor
  · decide
  · decide

set_option maxRecDepth 1000000 in
set_option maxHeartbeats 16000000 in
/-- Claim C5 (code-bug evidence): with two entries whose operator strings
normalize to the same sort-key bytes, the ordering and commitment
operations do not fail: the sort returns both duplicates (stably, in input
order) and the commitment hash is produced. -/
theorem duplicate_sort_keys_not_rejected :
    keyBytes dupA = keyBytes dupB ∧
    getSortedSignerOrder [dupA, dupB] = some [dupA, dupB] ∧
    (computeValsetHash [dupA, dupB]).isSome = true := by
  refine ⟨by decide, by decide, by decide⟩

/-! ### Bitmap lemmas -/

theorem createStep_foldl_length (total : Nat) (L : List Nat) :
    ∀ b : List Nat,
      (L.foldl (fun bitmap idx =>
        if idx < total then
          bitmap.set (idx / 8) ((bitmap.getD (idx / 8) 0) ||| (1 <<< (idx % 8)))
        else bitmap) b).length = b.length := by
  induction L with
  | nil => intro b; rfl
  | cons j L ih =>
    intro b
    rw [List.foldl_cons, ih]
    split <;> simp [List.length_set]

theorem createBitmap_length (S : List Nat) (total : Nat) :
    (createBitmap S total).length = (total + 7) / 8 := by
  unfold createBitmap
  rw [createStep_foldl_length]
  exact List.length_replicate _ _

theorem testBit_createStep_foldl (total : Nat) (L : List Nat) :
    ∀ (b : List Nat) (i : Nat), i < total → b.length = (total + 7) / 8 →
      Nat.testBit ((L.foldl (fun bitmap idx =>
          if idx < total then
            bitmap.set (idx / 8) ((bitmap.getD (idx / 8) 0) ||| (1 <<< (idx % 8)))
          else bitmap) b).getD (i / 8) 0) (i % 8)
        = (Nat.testBit (b.getD (i / 8) 0) (i % 8) || decide (i ∈ L)) := by
  induction L with
  | nil => intro b i hi hb; simp
  | cons j L ih =>
    intro b i hi hb
    rw [List.foldl_cons]
    have hstep : ∀ b2 : List Nat, b2.length = (total + 7) / 8 →
        ((if j < total then
            b2.set (j / 8) ((b2.getD (j / 8) 0) ||| (1 <<< (j % 8)))
          else b2) : List Nat).length = (total + 7) / 8 := by
      intro b2 hb2
      split <;> simp [List.length_set, hb2]
    rw [ih _ i hi (hstep b hb)]
    have hgoal : Nat.testBit ((if j < total then
          b.set (j / 8) ((b.getD (j / 8) 0) ||| (1 <<< (j % 8)))
        else b).getD (i / 8) 0) (i % 8)
        = (Nat.testBit (b.getD (i / 8) 0) (i % 8) || decide (i = j)) := by
      by_cases hj : j < total
      · rw [if_pos hj]
        by_cases hbyte : j / 8 = i / 8
        · have hjlt : j / 8 < b.length := by omega
          rw [← hbyte, getD_set_self b (j / 8) _ hjlt]
          rw [Nat.testBit_lor, Nat.shiftLeft_eq, one_mul, Nat.testBit_two_pow]
          have hiff : (j % 8 = i % 8) ↔ (i = j) := by omega
          rw [decide_eq_decide.mpr hiff]
        · rw [getD_set_ne b _ _ _ hbyte]
          have hij : ¬ (i = j) := fun h => hbyte (by rw [h])
          simp [hij]
      · rw [if_neg hj]
        have hij : ¬ (i = j) := by omega
        simp [hij]
    rw [hgoal]
    simp [List.mem_cons, Bool.or_assoc]

theorem testBit_createBitmap (S : List Nat) (total i : Nat) (hi : i < total) :
    Nat.testBit ((createBitmap S total).getD (i / 8) 0) (i % 8) = decide (i ∈ S) := by
  unfold createBitmap
  rw [testBit_createStep_foldl total S _ i hi (List.length_replicate _ _)]
  rw [getD_replicate_zero]
  simp [Nat.zero_testBit]

theorem parseBitsAux_eq (byte byteIdx total : Nat) :
    ∀ (fuel bitPos : Nat), bitPos + fuel <= 8 →
      parseBitsAux byte byteIdx total fuel bitPos
        = (List.range' (byteIdx * 8 + bitPos) fuel).filter
            (fun i => decide (i < total) && Nat.testBit byte (i % 8)) := by
  intro fuel
  induction fuel with
  | zero => intro bitPos h; rfl
  | succ fuel ih =>
    intro bitPos h
    rw [parseBitsAux, List.range'_succ, List.filter_cons]
    have hmod : (byteIdx * 8 + bitPos) % 8 = bitPos := by omega
    by_cases hT : total <= byteIdx * 8 + bitPos
    · rw [if_pos hT]
      have h1 : (decide (byteIdx * 8 + bitPos < total) &&
          Nat.testBit byte ((byteIdx * 8 + bitPos) % 8)) = false := by
        have : ¬ (byteIdx * 8 + bitPos < total) := by omega
        simp [this]
      rw [h1]
      have h2 : (List.range' (byteIdx * 8 + bitPos + 1) fuel).filter
          (fun i => decide (i < total) && Nat.testBit byte (i % 8)) = [] := by
        apply List.filter_eq_nil_iff.mpr
        intro a ha
        have hbnd := List.mem_range'_1.mp ha
        have : ¬ (a < total) := by omega
        simp [this]
      simp [h2]
    · rw [if_neg hT]
      have hlt : byteIdx * 8 + bitPos < total := by omega
      by_cases hbit : Nat.testBit byte bitPos
      · rw [if_pos ((land_shift_ne_zero byte bitPos).mpr hbit)]
        rw [ih (bitPos + 1) (by omega)]
        have hc : (decide (byteIdx * 8 + bitPos < total) &&
            Nat.testBit byte ((byteIdx * 8 + bitPos) % 8)) = true := by
          simp [hlt, hmod, hbit]
        rw [hc]
        simp [Nat.add_assoc]
      · rw [if_neg (fun hne => hbit ((land_shift_ne_zero byte bitPos).mp hne))]
        rw [ih (bitPos + 1) (by omega)]
        have hc : (decide (byteIdx * 8 + bitPos < total) &&
            Nat.testBit byte ((byteIdx * 8 + bitPos) % 8)) = false := by
          simp [hmod, hbit]
        rw [hc]
        simp [Nat.add_assoc]

theorem parseBytesAux_eq (total : Nat) (bytes : List Nat) :
    ∀ byteIdx : Nat,
      parseBytesAux total bytes byteIdx
        = (List.range' (byteIdx * 8) (8 * bytes.length)).filter
            (fun i => decide (i < total) && Nat.testBit (bytes.getD (i / 8 - byteIdx) 0) (i % 8)) := by
  induction bytes with
  | nil => intro byteIdx; rfl
  | cons byte rest ih =>
    intro byteIdx
    rw [parseBytesAux, parseBitsAux_eq byte byteIdx total 8 0 (by omega), ih (byteIdx + 1)]
    have hsplit : List.range' (byteIdx * 8) (8 * (byte :: rest).length)
        = List.range' (byteIdx * 8) 8 ++ List.range' ((byteIdx + 1) * 8) (8 * rest.length) := by
      have happ := List.range'_append (byteIdx * 8) 8 (8 * rest.length) 1
      have h1 : byteIdx * 8 + 1 * 8 = (byteIdx + 1) * 8 := by omega
      have h2 : 8 * rest.length + 8 = 8 * (byte :: rest).length := by
        simp [List.length_cons]; omega
      rw [h1, h2] at happ
      exact happ.symm
    rw [hsplit, List.filter_append]
    have hfirst : (List.range' (byteIdx * 8) 8).filter
        (fun i => decide (i < total) && Nat.testBit ((byte :: rest).getD (i / 8 - byteIdx) 0) (i % 8))
        = (List.range' (byteIdx * 8 + 0) 8).filter
            (fun i => decide (i < total) && Nat.testBit byte (i % 8)) := by
      apply List.filter_congr
      intro i hi
      have hbnd := List.mem_range'_1.mp hi
      have h0 : i / 8 - byteIdx = 0 := by omega
      rw [h0, List.getD_cons_zero]
    have hsecond : (List.range' ((byteIdx + 1) * 8) (8 * rest.length)).filter
        (fun i => decide (i < total) && Nat.testBit ((byte :: rest).getD (i / 8 - byteIdx) 0) (i % 8))
        = (List.range' ((byteIdx + 1) * 8) (8 * rest.length)).filter
            (fun i => decide (i < total) && Nat.testBit (rest.getD (i / 8 - (byteIdx + 1)) 0) (i % 8)) := by
      apply List.filter_congr
      intro i hi
      have hbnd := List.mem_range'_1.mp hi
      have h1 : i / 8 - byteIdx = (i / 8 - (byteIdx + 1)) + 1 := by omega
      rw [h1, List.getD_cons_succ]
    rw [← hfirst, ← hsecond]

theorem parseBitmap_eq_filter (b : List Nat) (total : Nat) :
    parseBitmap b total
      = (List.range (8 * b.length)).filter
          (fun i => decide (i < total) && Nat.testBit (b.getD (i / 8) 0) (i % 8)) := by
  unfold parseBitmap
  rw [parseBytesAux_eq total b 0, List.range_eq_range']
  have h0 : (0 : Nat) * 8 = 0 := by omega
  rw [h0]
  apply List.filter_congr
  intro i _
  rw [Nat.sub_zero]

theorem range_filter_cut (q : Nat → Bool) (N total : Nat) (h : total <= N) :
    (List.range N).filter (fun i => decide (i < total) && q i)
      = (List.range total).filter q := by
  have hsplit : List.range N = List.range total ++ List.range' total (N - total) := by
    rw [List.range_eq_range', List.range_eq_range']
    have happ := List.range'_append 0 total (N - total) 1
    have h1 : 0 + 1 * total = total := by omega
    have h2 : N - total + total = N := by omega
    rw [h1, h2] at happ
    exact happ.symm
  rw [hsplit, List.filter_append]
  have hnil : (List.range' total (N - total)).filter
      (fun i => decide (i < total) && q i) = [] := by
    apply List.filter_eq_nil_iff.mpr
    intro a ha
    have hbnd := List.mem_range'_1.mp ha
    have : ¬ (a < total) := by omega
    simp [this]
  rw [hnil, List.append_nil]
  apply List.filter_congr
  intro i hi
  have : i < total := List.mem_range.mp hi
  simp [this]

theorem range_filter_eq_sorted (S : List Nat) (total : Nat)
    (hin : ∀ i ∈ S, i < total) (hnd : S.Nodup) :
    (List.range total).filter (fun i => decide (i ∈ S)) = sortedIndices S := by
  have hndA : ((List.range total).filter (fun i => decide (i ∈ S))).Nodup :=
    (List.nodup_range total).filter _
  have hpermB : (sortedIndices S).Perm S := List.perm_insertionSort _ S
  have hndB : (sortedIndices S).Nodup := hpermB.nodup_iff.mpr hnd
  have hperm : ((List.range total).filter (fun i => decide (i ∈ S))).Perm (sortedIndices S) := by
    apply (List.perm_ext_iff_of_nodup hndA hndB).mpr
    intro a
    rw [List.mem_filter, List.mem_range, hpermB.mem_iff]
    constructor
    · intro ha
      exact of_decide_eq_true ha.2
    · intro ha
      exact ⟨hin a ha, decide_eq_true ha⟩
  apply List.eq_of_perm_of_sorted (r := fun a b : Nat => a <= b) hperm
  · exact ((List.pairwise_lt_range total).filter _).imp Nat.le_of_lt
  · exact List.sorted_insertionSort _ S

/-! ### Claim theorems: bitmap codec -/

/-- Claim C6 (amended): for every duplicate-free list S of indices that are
all below totalMembers, decoding the encoding of S gives sorted(S).  (The
in-range and no-duplicate hypotheses are forced: createBitmap silently
drops an out-of-range index — see the counterexample — and a bitmap cannot
represent multiplicity.) -/
theorem bitmap_roundtrip (S : List Nat) (total : Nat)
    (hin : ∀ i ∈ S, i < total) (hnd : S.Nodup) :
    parseBitmap (createBitmap S total) total = sortedIndices S := by
  rw [parseBitmap_eq_filter, createBitmap_length]
  have h1 : (List.range (8 * ((total + 7) / 8))).filter
      (fun i => decide (i < total) && Nat.testBit ((createBitmap S total).getD (i / 8) 0) (i % 8))
      = (List.range (8 * ((total + 7) / 8))).filter
          (fun i => decide (i < total) && decide (i ∈ S)) := by
    apply List.filter_congr
    intro i _
    by_cases hi : i < total
    · rw [testBit_createBitmap S total i hi]
    · simp [hi]
  rw [h1, range_filter_cut _ _ _ (by omega)]
  exact range_filter_eq_sorted S total hin hnd

/-- Witness for C6: the round trip at S = [2, 0], totalMembers = 3. -/
theorem bitmap_roundtrip_witness :
    (([2, 0] : List Nat).all fun i => decide (i < 3)) = true ∧
    ([2, 0] : List Nat).Nodup ∧
    parseBitmap (createBitmap [2, 0] 3) 3 = sortedIndices [2, 0] :=
  ⟨by decide, by decide,
   bitmap_roundtrip [2, 0] 3 (by intro i hi; fin_cases hi <;> omega) (by decide)⟩

/-- Counterexample to C6 as stated: with S = [5] and totalMembers = 3 the
out-of-range index is dropped by the encoder, so the round trip returns []
rather than sorted(S) = [5]. -/
theorem bitmap_roundtrip_fails_out_of_range :
    parseBitmap (createBitmap [5] 3) 3 ≠ sortedIndices [5] := by decide

/-- Claim C7: the encoded bitmap always has ceil(total/8) = (total+7)/8
bytes; for i < total, bit i of createBitmap's output lives at byte i/8, bit
position i%8 (least-significant-bit first), holding exactly "i ∈ S"; and
isBitSet reads that same position (false when the byte is out of range). -/
theorem bitmap_layout (S : List Nat) (total i : Nat) (b : List Nat) (hi : i < total) :
    (createBitmap S total).length = (total + 7) / 8 ∧
    Nat.testBit ((createBitmap S total).getD (i / 8) 0) (i % 8) = decide (i ∈ S) ∧
    isBitSet b i = (decide (i / 8 < b.length) && Nat.testBit (b.getD (i / 8) 0) (i % 8)) := by
  refine ⟨createBitmap_length S total, testBit_createBitmap S total i hi, ?_⟩
  unfold isBitSet
  by_cases h : b.length <= i / 8
  · rw [if_pos h]
    have h2 : ¬ (i / 8 < b.length) := by omega
    simp [h2]
  · rw [if_neg h]
    have h2 : i / 8 < b.length := by omega
    simp [h2, land_shift_ne_zero]

/-- Witness for C7: S = [1], totalMembers = 3, i = 1, probe buffer [2]. -/
theorem bitmap_layout_witness :
    (1 < 3) ∧
    ((createBitmap [1] 3).length = (3 + 7) / 8 ∧
     Nat.testBit ((createBitmap [1] 3).getD (1 / 8) 0) (1 % 8) = decide (1 ∈ ([1] : List Nat)) ∧
     isBitSet [2] 1 = (decide (1 / 8 < ([2] : List Nat).length) &&
       Nat.testBit (([2] : List Nat).getD (1 / 8) 0) (1 % 8))) :=
  ⟨by decide, bitmap_layout [1] 3 1 [2] (by decide)⟩

theorem createStep_foldl_filter (total : Nat) (L : List Nat) :
    ∀ b : List Nat,
      L.foldl (fun bitmap idx =>
          if idx < total then
            bitmap.set (idx / 8) ((bitmap.getD (idx / 8) 0) ||| (1 <<< (idx % 8)))
          else bitmap) b
        = (L.filter (fun i => decide (i < total))).foldl (fun bitmap idx =>
            if idx < total then
              bitmap.set (idx / 8) ((bitmap.getD (idx / 8) 0) ||| (1 <<< (idx % 8)))
            else bitmap) b := by
  induction L with
  | nil => intro b; rfl
  | cons j L ih =>
    intro b
    rw [List.foldl_cons, List.filter_cons]
    by_cases hj : j < total
    · rw [decide_eq_true hj, if_pos rfl, List.foldl_cons]
      exact ih _
    · rw [decide_eq_false hj]
      simp only [Bool.false_eq_true, if_false]
      rw [if_neg hj]
      exact ih b

/-- Claim C8 (amended): an index at or beyond totalMembers is silently
ignored by createBitmap — the resulting bitmap is identical to the one for
the in-range indices alone, with no error — and parseBitmap never returns
an index at or beyond totalMembers. -/
theorem bitmap_out_of_range_silent (S : List Nat) (total : Nat) (b : List Nat) :
    createBitmap S total = createBitmap (S.filter (fun i => decide (i < total))) total ∧
    (parseBitmap b total).all (fun i => decide (i < total)) = true := by
  constructor
  · unfold createBitmap
    exact createStep_foldl_filter total S _
  · rw [parseBitmap_eq_filter, List.all_eq_true]
    intro i hi
    have h := (List.mem_filter.mp hi).2
    exact (Bool.and_eq_true_iff.mp h).1

/-- Counterexample to C8 as stated: createBitmap does not reject the
out-of-range index 5 with an error; it returns the same (zero) bitmap as
for the empty index set. -/
theorem createBitmap_out_of_range_not_rejected :
    createBitmap [5] 3 = createBitmap [] 3 ∧ createBitmap [5] 3 = [0] := by decide

/-- Claim C10: when byte position i/8 is at or beyond the buffer length,
isBitSet returns false (total, no out-of-bounds access), and setBit and
clearBit leave the buffer unchanged. -/
theorem bitmap_ops_total_out_of_range (bitmap : List Nat) (i : Nat)
    (h : bitmap.length <= i / 8) :
    isBitSet bitmap i = false ∧ setBit bitmap i = bitmap ∧ clearBit bitmap i = bitmap := by
  have h2 : ¬ (i / 8 < bitmap.length) := by omega
  refine ⟨?_, ?_, ?_⟩
  · unfold isBitSet
    rw [if_pos h]
  · unfold setBit
    rw [if_neg h2]
  · unfold clearBit
    rw [if_neg h2]

/-- Witness for C10: a one-byte bitmap probed at index 8. -/
theorem bitmap_ops_total_out_of_range_witness :
    ([255] : List Nat).length <= 8 / 8 ∧
    (isBitSet [255] 8 = false ∧ setBit [255] 8 = [255] ∧ clearBit [255] 8 = [255]) :=
  ⟨by decide, bitmap_ops_total_out_of_range [255] 8 (by decide)⟩

/-! ### Claim theorems: signing daemon -/

/-- Claim C9: both the key-level SignDigest and the /sign handler reject
every digest whose length is not exactly 32 bytes.  SignDigest errors
before invoking the curve operation; the handler answers 400 before any
key lookup (its response is independent of the key store), and when the
length is 32, SignDigest delegates to the underlying signing operation,
so an error arises exactly from a failing precondition. -/
theorem sign_rejects_short_digest {K : Type} (keyLookup keyLookup2 : String → Option K)
    (cryptoSign : K → List Nat → Except String (List Nat))
    (rawSign : List Nat → Except String (List Nat))
    (op dh : String) (digest d32 : List Nat)
    (hdec : hexDecodeString dh = some digest) (hlen : digest.length ≠ 32) :
    SignDigest rawSign digest
        = Except.error ("digest must be exactly 32 bytes, got " ++ toString digest.length) ∧
    handleSign keyLookup cryptoSign op dh = handleSign keyLookup2 cryptoSign op dh ∧
    (op ≠ "" → dh ≠ "" →
      handleSign keyLookup cryptoSign op dh = SignResponse.err 400 "digest must be exactly 32 bytes") ∧
    (d32.length = 32 → SignDigest rawSign d32 = rawSign d32) := by
  refine ⟨?_, ?_, ?_, ?_⟩
  · unfold SignDigest
    rw [if_pos hlen]
  · by_cases hop : op = ""
    · simp [handleSign, hop]
    · by_cases hdh : dh = ""
      · simp [handleSign, hop, hdh]
      · simp [handleSign, hop, hdh, hdec, hlen]
  · intro hop hdh
    simp [handleSign, hop, hdh, hdec, hlen]
  · intro h32
    unfold SignDigest
    rw [if_neg (by omega)]

/-- Witness for C9: a 1-byte digest (hex "ab") is rejected by the handler
regardless of the key store, and an empty key store behaves like a
populated one on that request. -/
theorem sign_rejects_short_digest_witness :
    hexDecodeString "ab" = some [171] ∧ ([171] : List Nat).length ≠ 32 ∧
    (SignDigest (fun _ => Except.ok []) [171]
        = Except.error ("digest must be exactly 32 bytes, got " ++ toString ([171] : List Nat).length) ∧
     handleSign (fun _ => (none : Option Unit)) (fun _ _ => Except.ok []) "op1" "ab"
        = handleSign (fun _ => (some () : Option Unit)) (fun _ _ => Except.ok []) "op1" "ab" ∧
     ("op1" ≠ "" → "ab" ≠ "" →
       handleSign (fun _ => (none : Option Unit)) (fun _ _ => Except.ok []) "op1" "ab"
          = SignResponse.err 400 "digest must be exactly 32 bytes") ∧
     (([] : List Nat).length = 32 →
       SignDigest (fun _ => Except.ok []) ([] : List Nat) = Except.ok [])) :=
  ⟨by decide, by decide,
   sign_rejects_short_digest (fun _ => (none : Option Unit)) (fun _ => (some () : Option Unit))
     (fun _ _ => Except.ok []) (fun _ => Except.ok []) "op1" "ab" [171] []
     (by decide) (by decide)⟩
